import Mathlib

/-!
Verification of the graph/BFS core of a congressional Twitter network
analysis program.  The program stores a directed graph as an adjacency
map from node identifiers to neighbor lists, computes BFS shortest
hop-counts from each source node, and averages all strictly positive
distances over all BFS sources.

Modelling choices (shallow embedding of the Rust source):
* the adjacency `HashMap<usize, Vec<usize>>` is modelled as an
  association list `List (Nat × List Nat)` with unique keys;
* `usize` is modelled as `Nat`;
* the `f64` arithmetic of the final average is modelled as exact
  rational arithmetic (the program only performs a single division);
* the random number generator is modelled by passing the sequence of
  drawn node pairs explicitly;
* the edge-list file is modelled as its list of lines, and the fatal
  `unwrap` calls of the loader as an `Option.none` result;
* the unbounded `while let Some(node) = queue.pop_front()` loop is
  modelled with explicit fuel `bfsFuel`; `bfsLoop_total` shows this
  fuel always suffices, so the model loses no behaviour.
-/

/-- Association-list lookup: the value stored under key `k`, if any. -/
def findVal (k : Nat) : List (Nat × α) → Option α
  | [] => none
  | (a, v) :: rest => if a = k then some v else findVal k rest

/-- The keys of an association list, in storage order. -/
def keysOf (l : List (Nat × α)) : List Nat := l.map Prod.fst

/-- Directed graph: adjacency map from node id to its ordered list of
out-neighbors (models `struct Graph { adj_list: HashMap<usize, Vec<usize>> }`). -/
abbrev Graph := List (Nat × List Nat)

/-- `Graph::new`: the empty adjacency map. -/
def Graph.new : Graph := []

/-- `Graph::add_edge`:
`self.adj_list.entry(source).or_insert_with(Vec::new).push(target)` —
append `target` to `source`'s neighbor list, creating the entry if absent. -/
def Graph.add_edge : Graph → Nat → Nat → Graph
  | [], s, t => [(s, [t])]
  | (k, ns) :: rest, s, t =>
    if k = s then (k, ns ++ [t]) :: rest
    else (k, ns) :: Graph.add_edge rest s t

/-- The stored neighbor list of `node`, or `[]` when absent
(`if let Some(neighbors) = self.adj_list.get(&node)` skips absent nodes,
which is the same as iterating over an empty list). -/
def Graph.neighbors (g : Graph) (node : Nat) : List Nat :=
  (findVal node g).getD []

/-- All edge targets occurring anywhere in the adjacency map. -/
def targetsOf : Graph → List Nat
  | [] => []
  | (_, ns) :: rest => ns ++ targetsOf rest

/-- The inner `for &neighbor in neighbors` loop of `Graph::bfs`: for each
neighbor not yet in the distance map, record distance `dn + 1` (where `dn`
is the dequeued node's distance) and push it; `pushed` accumulates the
`queue.push_back` calls in order. -/
def visitNeighbors (dn : Nat) : List Nat → List (Nat × Nat) → List Nat → List (Nat × Nat) × List Nat
  | [], dist, pushed => (dist, pushed)
  | n :: ns, dist, pushed =>
    if (findVal n dist).isSome then visitNeighbors dn ns dist pushed
    else visitNeighbors dn ns (dist ++ [(n, dn + 1)]) (pushed ++ [n])

/-- The `while let Some(node) = queue.pop_front()` loop of `Graph::bfs`,
with explicit fuel.  `none` means the fuel ran out, or the indexing
`distances[&node]` would have panicked (neither ever happens, see
`bfsLoop_total`). -/
def bfsLoop (g : Graph) : Nat → List (Nat × Nat) → List Nat → Option (List (Nat × Nat))
  | 0, _, _ => none
  | _ + 1, dist, [] => some dist
  | fuel + 1, dist, node :: rest =>
    match findVal node dist with
    | none => none
    | some dn =>
      let st := visitNeighbors dn (g.neighbors node) dist []
      bfsLoop g fuel st.1 (rest ++ st.2)

/-- Fuel sufficient for `bfsLoop` to drain its queue (proved in
`bfsLoop_total`): every node ever queued is `start` or an edge
target, and each is queued at most once. -/
def bfsFuel (g : Graph) (start : Nat) : Nat :=
  2 * (start :: targetsOf g).dedup.length + 1

/-- `Graph::bfs`: distance map from `start`, built by the queue loop
starting from `{start: 0}` and queue `[start]`. -/
def Graph.bfs (g : Graph) (start : Nat) : List (Nat × Nat) :=
  (bfsLoop g (bfsFuel g start) [(start, 0)] [start]).getD [(start, 0)]

/-- One `if d > 0 { total_distance += d; path_count += 1 }` step of
`average_path_length`, acting on the `(total_distance, path_count)` pair. -/
def distStep (acc : Nat × Nat) (d : Nat) : Nat × Nat :=
  if 0 < d then (acc.1 + d, acc.2 + 1) else acc

/-- Body of `average_path_length`, parameterised by the order in which the
adjacency-map keys are iterated (a Rust `HashMap` iterates its keys in an
unspecified order). -/
def average_path_length_order (g : Graph) (nodes : List Nat) : ℚ :=
  let tc := nodes.foldl (fun acc node => ((g.bfs node).map Prod.snd).foldl distStep acc) (0, 0)
  if tc.2 = 0 then 0 else (tc.1 : ℚ) / (tc.2 : ℚ)

/-- `average_path_length`: run `bfs` from every adjacency-map key, sum and
count all strictly positive distances, return `sum / count` (or `0.0`). -/
def average_path_length (g : Graph) : ℚ :=
  average_path_length_order g (keysOf g)

/-- `line.split_whitespace()`: maximal runs of non-whitespace characters. -/
def splitWhitespaceOf (line : String) : List String :=
  (line.split (fun c => c.isWhitespace)).filter (fun s => !s.isEmpty)

/-- `str::parse::<usize>()` on a token: an optional leading `+` followed by
one or more decimal digits (overflow is not modelled; `usize` is `Nat`). -/
def parseUsize (s : String) : Option Nat :=
  (if s.startsWith "+" then s.drop 1 else s).toNat?

/-- The line loop of `Graph::from_edgelist`: lines with fewer than two
tokens are skipped; otherwise the first two tokens must parse as unsigned
integers (`parse().unwrap()` — failure is fatal, modelled as `none`) and
contribute one `add_edge` call. -/
def loadLines : List String → Graph → Option Graph
  | [], g => some g
  | line :: rest, g =>
    match splitWhitespaceOf line with
    | a :: b :: _ =>
      match parseUsize a, parseUsize b with
      | some s, some t => loadLines rest (g.add_edge s t)
      | _, _ => none
    | _ => loadLines rest g

/-- `Graph::from_edgelist`, with the file modelled as its list of lines. -/
def from_edgelist (lines : List String) : Option Graph :=
  loadLines lines Graph.new

/-- The loop body of `generate_random_graph`:
`if source != target { graph.add_edge(source, target) }`. -/
def genStep (g : Graph) (p : Nat × Nat) : Graph :=
  if p.1 ≠ p.2 then g.add_edge p.1 p.2 else g

/-- `generate_random_graph`, with the random draws passed explicitly:
`draws` is the sequence of `(source, target)` pairs produced by the
`nodes.choose(&mut rng)` calls, one pair per loop iteration (so
`draws.length = num_edges`, and each component lies in `[0, num_nodes)`).
An edge is inserted unless `source == target`. -/
def generate_random_graph (draws : List (Nat × Nat)) : Graph :=
  draws.foldl genStep Graph.new

/-- Total number of stored edges (sum of neighbor-list lengths). -/
def edgeCount (g : Graph) : Nat :=
  (g.map (fun p => p.2.length)).sum

/-- `PathTo g s t n`: there is a directed walk of exactly `n` hops from
`s` to `t` in `g`. -/
inductive PathTo (g : Graph) (s : Nat) : Nat → Nat → Prop
  | refl : PathTo g s s 0
  | step {u n t} : PathTo g s u n → t ∈ g.neighbors u → PathTo g s t (n + 1)

/-- `t` is reachable from `s` by directed hops (zero hops included). -/
def Reachable (g : Graph) (s t : Nat) : Prop := ∃ n, PathTo g s t n

/-- Graphs constructible by the program: `Graph::new` followed by any
sequence of `add_edge` calls. -/
inductive Built : Graph → Prop
  | new : Built Graph.new
  | add {g : Graph} (s t : Nat) : Built g → Built (g.add_edge s t)

/-! ### Association-list lemmas -/

lemma findVal_append (k : Nat) (l₁ l₂ : List (Nat × α)) :
    findVal k (l₁ ++ l₂) =
      match findVal k l₁ with
      | some v => some v
      | none => findVal k l₂ := by
  induction l₁ with
  | nil => simp [findVal]
  | cons p rest ih =>
    obtain ⟨a, v⟩ := p
    by_cases h : a = k <;> simp [findVal, h, ih]

lemma findVal_mem {k : Nat} {l : List (Nat × α)} {v : α}
    (h : findVal k l = some v) : (k, v) ∈ l := by
  induction l with
  | nil => simp [findVal] at h
  | cons p rest ih =>
    obtain ⟨a, w⟩ := p
    by_cases ha : a = k
    · subst ha
      simp [findVal] at h
      simp [h]
    · simp [findVal, ha] at h
      exact List.mem_cons_of_mem _ (ih h)

lemma findVal_isSome_iff {k : Nat} {l : List (Nat × α)} :
    (findVal k l).isSome = true ↔ k ∈ keysOf l := by
  induction l with
  | nil => simp [findVal, keysOf]
  | cons p rest ih =>
    obtain ⟨a, w⟩ := p
    by_cases ha : a = k
    · subst ha
      simp [findVal, keysOf]
    · simp [findVal, keysOf, ha, Ne.symm ha] at ih ⊢
      exact ih

lemma findVal_eq_none_iff {k : Nat} {l : List (Nat × α)} :
    findVal k l = none ↔ k ∉ keysOf l := by
  rw [← findVal_isSome_iff, Option.isSome_iff_exists]
  cases findVal k l <;> simp

lemma mem_findVal {k : Nat} {l : List (Nat × α)} {v : α}
    (hnd : (keysOf l).Nodup) (h : (k, v) ∈ l) : findVal k l = some v := by
  induction l with
  | nil => simp at h
  | cons p rest ih =>
    obtain ⟨a, w⟩ := p
    simp [keysOf] at hnd
    rcases List.mem_cons.mp h with heq | hmem
    · rw [Prod.mk.injEq] at heq
      obtain ⟨rfl, rfl⟩ := heq
      simp [findVal]
    · have hk : a ≠ k := by
        rintro rfl
        exact hnd.1 v hmem
      simp only [findVal, if_neg hk]
      exact ih hnd.2 hmem

/-! ### `add_edge` lemmas -/

lemma findVal_add_edge_self (g : Graph) (s t : Nat) :
    findVal s (g.add_edge s t) = some (g.neighbors s ++ [t]) := by
  induction g with
  | nil => simp [Graph.add_edge, findVal, Graph.neighbors]
  | cons p rest ih =>
    obtain ⟨k, ns⟩ := p
    by_cases hk : k = s
    · subst hk
      simp [Graph.add_edge, findVal, Graph.neighbors]
    · simp [Graph.add_edge, hk, findVal, Graph.neighbors] at ih ⊢
      exact ih

lemma findVal_add_edge_other (g : Graph) (s t k : Nat) (hk : k ≠ s) :
    findVal k (g.add_edge s t) = findVal k g := by
  induction g with
  | nil => simp [Graph.add_edge, findVal, Ne.symm hk]
  | cons p rest ih =>
    obtain ⟨a, ns⟩ := p
    by_cases ha : a = s
    · subst ha
      simp [Graph.add_edge, findVal, Ne.symm hk]
    · by_cases hak : a = k
      · subst hak
        simp [Graph.add_edge, ha, findVal]
      · simp [Graph.add_edge, ha, findVal, hak, ih]

lemma neighbors_add_edge (g : Graph) (s t k : Nat) :
    (g.add_edge s t).neighbors k =
      if k = s then g.neighbors k ++ [t] else g.neighbors k := by
  by_cases hk : k = s
  · subst hk
    simp [Graph.neighbors, findVal_add_edge_self]
  · simp [hk, Graph.neighbors, findVal_add_edge_other g s t k hk]

lemma mem_keysOf_add_edge (g : Graph) (s t k : Nat) :
    k ∈ keysOf (g.add_edge s t) ↔ k ∈ keysOf g ∨ k = s := by
  induction g with
  | nil => simp [Graph.add_edge, keysOf]
  | cons p rest ih =>
    obtain ⟨a, ns⟩ := p
    by_cases ha : a = s
    · subst ha
      simp [Graph.add_edge, keysOf]
      tauto
    · simp [Graph.add_edge, ha, keysOf] at ih ⊢
      tauto

lemma edgeCount_add_edge (g : Graph) (s t : Nat) :
    edgeCount (g.add_edge s t) = edgeCount g + 1 := by
  induction g with
  | nil => simp [Graph.add_edge, edgeCount]
  | cons p rest ih =>
    obtain ⟨a, ns⟩ := p
    by_cases ha : a = s
    · subst ha
      simp [Graph.add_edge, edgeCount]
      omega
    · simp [Graph.add_edge, ha, edgeCount] at ih ⊢
      omega

/-- C5: `add_edge(source, target)` appends `target` at the end of
`source`'s neighbor sequence (creating the entry when absent, so no
deduplication and self-loops allowed), and leaves the entry of every
other node unchanged. -/
theorem add_edge_spec (g : Graph) (s t : Nat) :
    findVal s (g.add_edge s t) = some (g.neighbors s ++ [t]) ∧
    ∀ k, k ≠ s → findVal k (g.add_edge s t) = findVal k g :=
  ⟨findVal_add_edge_self g s t, fun k hk => findVal_add_edge_other g s t k hk⟩

/-- Witness for C5 at the spec's example: after `add_edge(1,2); add_edge(1,3)`
the neighbor sequence of `1` is `[2, 3]`, and node `0`'s entry is untouched. -/
theorem add_edge_spec_witness :
    (0 : Nat) ≠ 1 ∧
    findVal 1 ((Graph.new.add_edge 1 2).add_edge 1 3) =
      some ((Graph.new.add_edge 1 2).neighbors 1 ++ [3]) ∧
    findVal 0 ((Graph.new.add_edge 1 2).add_edge 1 3) =
      findVal 0 (Graph.new.add_edge 1 2) :=
  ⟨by decide, (add_edge_spec (Graph.new.add_edge 1 2) 1 3).1,
    (add_edge_spec (Graph.new.add_edge 1 2) 1 3).2 0 (by decide)⟩

/-- C6: in any graph built from `Graph::new` by `add_edge` calls, a node
identifier is a key of the adjacency map iff it has at least one recorded
outgoing edge (every key's neighbor sequence is non-empty; pure targets
need not appear as keys). -/
theorem adjacency_keys_invariant (g : Graph) (hg : Built g) :
    ∀ k, k ∈ keysOf g ↔ g.neighbors k ≠ [] := by
  induction hg with
  | new => simp [Graph.new, keysOf, Graph.neighbors, findVal]
  | add s t _ ih =>
    intro k
    rw [mem_keysOf_add_edge, neighbors_add_edge]
    by_cases hk : k = s
    · simp [hk]
    · simp [hk, ih k]

/-- Witness for C6 on the graph built by `add_edge(0,1); add_edge(1,2)`:
node `0` is a key and indeed has a recorded outgoing edge. -/
theorem adjacency_keys_invariant_witness :
    Built ((Graph.new.add_edge 0 1).add_edge 1 2) ∧
    (0 ∈ keysOf ((Graph.new.add_edge 0 1).add_edge 1 2) ↔
      ((Graph.new.add_edge 0 1).add_edge 1 2).neighbors 0 ≠ []) :=
  ⟨Built.add 1 2 (Built.add 0 1 Built.new),
    adjacency_keys_invariant _ (Built.add 1 2 (Built.add 0 1 Built.new)) 0⟩


/-! ### Random graph generation -/

/-- A draw `p` contributes an edge into the source `k`'s neighbor list. -/
def keepDraw (k : Nat) (p : Nat × Nat) : Bool := decide (p.1 = k ∧ p.1 ≠ p.2)

/-- A draw that is not a self-loop (and so is inserted). -/
def isMove (p : Nat × Nat) : Bool := decide (p.1 ≠ p.2)

lemma neighbors_generate_aux (draws : List (Nat × Nat)) (g₀ : Graph) (k : Nat) :
    (draws.foldl genStep g₀).neighbors k =
      g₀.neighbors k ++ (draws.filter (keepDraw k)).map Prod.snd := by
  induction draws generalizing g₀ with
  | nil => simp
  | cons p draws ih =>
    rw [List.foldl_cons, List.filter_cons]
    by_cases hab : p.1 = p.2
    · have hkeep : keepDraw k p = false := by
        simp only [keepDraw, decide_eq_false_iff_not]
        exact fun h => h.2 hab
      have hstep : genStep g₀ p = g₀ := by simp [genStep, hab]
      rw [hkeep, hstep, ih]
      simp
    · by_cases hk : p.1 = k
      · have hkeep : keepDraw k p = true := by
          simp only [keepDraw, decide_eq_true_eq]
          exact ⟨hk, hab⟩
        have hstep : genStep g₀ p = g₀.add_edge p.1 p.2 := by simp [genStep, hab]
        rw [hkeep, hstep, ih, neighbors_add_edge]
        subst hk
        simp
      · have hkeep : keepDraw k p = false := by
          simp only [keepDraw, decide_eq_false_iff_not]
          exact fun h => hk h.1
        have hstep : genStep g₀ p = g₀.add_edge p.1 p.2 := by simp [genStep, hab]
        rw [hkeep, hstep, ih, neighbors_add_edge]
        simp [Ne.symm hk]

lemma edgeCount_generate_aux (draws : List (Nat × Nat)) (g₀ : Graph) :
    edgeCount (draws.foldl genStep g₀) =
      edgeCount g₀ + (draws.filter isMove).length := by
  induction draws generalizing g₀ with
  | nil => simp
  | cons p draws ih =>
    rw [List.foldl_cons, List.filter_cons]
    by_cases hab : p.1 = p.2
    · have hm : isMove p = false := by simp [isMove, hab]
      have hstep : genStep g₀ p = g₀ := by simp [genStep, hab]
      rw [hm, hstep, ih]
      simp
    · have hm : isMove p = true := by simp [isMove, hab]
      have hstep : genStep g₀ p = g₀.add_edge p.1 p.2 := by simp [genStep, hab]
      rw [hm, hstep, ih, edgeCount_add_edge]
      simp
      omega

lemma keys_generate_aux (draws : List (Nat × Nat)) (g₀ : Graph) (k : Nat) :
    k ∈ keysOf (draws.foldl genStep g₀) → k ∈ keysOf g₀ ∨ ∃ p ∈ draws, p.1 = k := by
  induction draws generalizing g₀ with
  | nil => simp
  | cons p draws ih =>
    rw [List.foldl_cons]
    intro h
    rcases ih (genStep g₀ p) h with h' | ⟨q, hq, hqk⟩
    · by_cases hab : p.1 = p.2
      · rw [show genStep g₀ p = g₀ from by simp [genStep, hab]] at h'
        exact Or.inl h'
      · rw [show genStep g₀ p = g₀.add_edge p.1 p.2 from by simp [genStep, hab]] at h'
        rcases (mem_keysOf_add_edge g₀ p.1 p.2 k).mp h' with h'' | rfl
        · exact Or.inl h''
        · exact Or.inr ⟨p, List.mem_cons_self .., rfl⟩
    · exact Or.inr ⟨q, List.mem_cons_of_mem _ hq, hqk⟩

/-- C9: with the drawn pairs given explicitly, `generate_random_graph`
inserts exactly the non-self-loop draws (each node's neighbor list is the
targets of its non-self-loop draws, in draw order), so the realized edge
count is the number of non-self-loop draws, at most `num_edges`; all keys
come from the drawn sources, hence lie in `[0, num_nodes)`. -/
theorem generate_random_graph_spec (num_nodes : Nat) (draws : List (Nat × Nat))
    (_hn : 0 < num_nodes) (hdraws : ∀ p ∈ draws, p.1 < num_nodes ∧ p.2 < num_nodes) :
    (∀ k, (generate_random_graph draws).neighbors k =
        (draws.filter (keepDraw k)).map Prod.snd) ∧
    edgeCount (generate_random_graph draws) = (draws.filter isMove).length ∧
    edgeCount (generate_random_graph draws) ≤ draws.length ∧
    ∀ k ∈ keysOf (generate_random_graph draws), k < num_nodes := by
  refine ⟨fun k => ?_, ?_, ?_, fun k hk => ?_⟩
  · have h := neighbors_generate_aux draws Graph.new k
    simpa [generate_random_graph, Graph.new, Graph.neighbors, findVal] using h
  · have h := edgeCount_generate_aux draws Graph.new
    simpa [generate_random_graph, Graph.new, edgeCount] using h
  · have h := edgeCount_generate_aux draws Graph.new
    have hle : (draws.filter isMove).length ≤ draws.length := List.length_filter_le _ _
    have h0 : edgeCount Graph.new = 0 := by simp [Graph.new, edgeCount]
    rw [generate_random_graph, h, h0]
    omega
  · rcases keys_generate_aux draws Graph.new k hk with h | ⟨p, hp, hpk⟩
    · simp [Graph.new, keysOf] at h
    · exact hpk ▸ (hdraws p hp).1

/-- Witness for C9 with two nodes and draws `(0,1)` (kept) and `(1,1)`
(a self-loop, silently skipped). -/
theorem generate_random_graph_spec_witness :
    (0 : Nat) < 2 ∧
    (generate_random_graph [(0, 1), (1, 1)]).neighbors 0 =
      (([(0, 1), (1, 1)] : List (Nat × Nat)).filter (keepDraw 0)).map Prod.snd ∧
    edgeCount (generate_random_graph [(0, 1), (1, 1)]) =
      (([(0, 1), (1, 1)] : List (Nat × Nat)).filter isMove).length ∧
    edgeCount (generate_random_graph [(0, 1), (1, 1)]) ≤ 2 :=
  ⟨by decide,
    (generate_random_graph_spec 2 [(0, 1), (1, 1)] (by decide) (by decide)).1 0,
    (generate_random_graph_spec 2 [(0, 1), (1, 1)] (by decide) (by decide)).2.1,
    (generate_random_graph_spec 2 [(0, 1), (1, 1)] (by decide) (by decide)).2.2.1⟩

/-! ### Edge-list loading -/

/-- Spec-side description of a line the loader accepts without aborting:
fewer than two tokens (skipped), or both leading tokens parse. -/
def lineOk (line : String) : Bool :=
  match splitWhitespaceOf line with
  | a :: b :: _ => (parseUsize a).isSome && (parseUsize b).isSome
  | _ => true

/-- Spec-side description of the edge contributed by a line: the first two
tokens parsed as unsigned integers; `none` for skipped or aborting lines.
Tokens beyond the first two are ignored. -/
def linePair (line : String) : Option (Nat × Nat) :=
  match splitWhitespaceOf line with
  | a :: b :: _ =>
    match parseUsize a, parseUsize b with
    | some s, some t => some (s, t)
    | _, _ => none
  | _ => none

lemma loadLines_spec (lines : List String) : ∀ g : Graph,
    loadLines lines g =
      if lines.all lineOk then
        some ((lines.filterMap linePair).foldl (fun h p => h.add_edge p.1 p.2) g)
      else none := by
  induction lines with
  | nil => intro g; simp [loadLines]
  | cons line rest ih =>
    intro g
    rw [List.all_cons, List.filterMap_cons]
    cases htok : splitWhitespaceOf line with
    | nil =>
      rw [show loadLines (line :: rest) g = loadLines rest g from by
        simp only [loadLines, htok]]
      rw [show lineOk line = true from by simp only [lineOk, htok]]
      rw [show linePair line = none from by simp only [linePair, htok]]
      simpa using ih g
    | cons a tl =>
      cases tl with
      | nil =>
        rw [show loadLines (line :: rest) g = loadLines rest g from by
          simp only [loadLines, htok]]
        rw [show lineOk line = true from by simp only [lineOk, htok]]
        rw [show linePair line = none from by simp only [linePair, htok]]
        simpa using ih g
      | cons b tl2 =>
        cases hpa : parseUsize a with
        | none =>
          rw [show loadLines (line :: rest) g = none from by
            simp only [loadLines, htok, hpa]]
          rw [show lineOk line = false from by simp only [lineOk, htok, hpa]; rfl]
          simp
        | some s =>
          cases hpb : parseUsize b with
          | none =>
            rw [show loadLines (line :: rest) g = none from by
              simp only [loadLines, htok, hpa, hpb]]
            rw [show lineOk line = false from by simp only [lineOk, htok, hpa, hpb]; rfl]
            simp
          | some t =>
            rw [show loadLines (line :: rest) g = loadLines rest (g.add_edge s t) from by
              simp only [loadLines, htok, hpa, hpb]]
            rw [show lineOk line = true from by simp only [lineOk, htok, hpa, hpb]; rfl]
            rw [show linePair line = some (s, t) from by simp only [linePair, htok, hpa, hpb]]
            simpa using ih (g.add_edge s t)

/-- C8: `from_edgelist` skips every line with fewer than two tokens,
ignores tokens beyond the first two, aborts (returns `none`, the model of
the fatal `unwrap`) as soon as some line's first or second token does not
parse as an unsigned integer, and otherwise performs exactly one
`add_edge(source, target)` per parseable line, in line order. -/
theorem from_edgelist_spec (lines : List String) :
    from_edgelist lines =
      if lines.all lineOk then
        some ((lines.filterMap linePair).foldl (fun h p => h.add_edge p.1 p.2) Graph.new)
      else none :=
  loadLines_spec lines Graph.new

/-! ### Average path length -/

/-- The strictly positive entries of a list of distances. -/
def posOf (l : List Nat) : List Nat := l.filter (fun d => decide (0 < d))

/-- Spec-side `total_distance`: the sum, over every BFS source in `nodes`
and every strictly positive distance value of its distance map, of those
values. -/
def totalDist (g : Graph) (nodes : List Nat) : Nat :=
  (nodes.map (fun k => (posOf ((g.bfs k).map Prod.snd)).sum)).sum

/-- Spec-side `path_count`: how many strictly positive distance values
were summed. -/
def pathCount (g : Graph) (nodes : List Nat) : Nat :=
  (nodes.map (fun k => (posOf ((g.bfs k).map Prod.snd)).length)).sum

lemma foldl_distStep (l : List Nat) : ∀ acc : Nat × Nat,
    l.foldl distStep acc = (acc.1 + (posOf l).sum, acc.2 + (posOf l).length) := by
  induction l with
  | nil => intro acc; simp [posOf]
  | cons d l ih =>
    intro acc
    rw [List.foldl_cons, ih]
    by_cases hd : 0 < d
    · have hpos : posOf (d :: l) = d :: posOf l := by simp [posOf, hd]
      rw [hpos]
      simp only [distStep, if_pos hd, List.sum_cons, List.length_cons, Prod.mk.injEq]
      constructor <;> omega
    · have hpos : posOf (d :: l) = posOf l := by simp [posOf, hd]
      rw [hpos]
      simp only [distStep, if_neg hd]

lemma foldl_bfs_acc (g : Graph) (nodes : List Nat) : ∀ acc : Nat × Nat,
    nodes.foldl (fun acc node => ((g.bfs node).map Prod.snd).foldl distStep acc) acc =
      (acc.1 + totalDist g nodes, acc.2 + pathCount g nodes) := by
  induction nodes with
  | nil => intro acc; simp [totalDist, pathCount]
  | cons k nodes ih =>
    intro acc
    rw [List.foldl_cons]
    show nodes.foldl _ (((g.bfs k).map Prod.snd).foldl distStep acc) = _
    rw [foldl_distStep, ih]
    simp only [totalDist, pathCount, List.map_cons, List.sum_cons, Prod.mk.injEq]
    constructor <;> omega

lemma average_order_eq (g : Graph) (nodes : List Nat) :
    average_path_length_order g nodes =
      if pathCount g nodes = 0 then 0
      else (totalDist g nodes : ℚ) / (pathCount g nodes : ℚ) := by
  unfold average_path_length_order
  rw [foldl_bfs_acc]
  simp

/-- C2: `average_path_length` equals the sum of all strictly positive
distance values of the per-key BFS maps, divided by their count, and is
exactly `0` when that count is zero. -/
theorem average_path_length_spec (g : Graph) :
    average_path_length g =
      if pathCount g (keysOf g) = 0 then 0
      else (totalDist g (keysOf g) : ℚ) / (pathCount g (keysOf g) : ℚ) := by
  rw [average_path_length]
  exact average_order_eq g (keysOf g)

lemma totalDist_perm (g : Graph) {n₁ n₂ : List Nat} (h : n₁.Perm n₂) :
    totalDist g n₁ = totalDist g n₂ :=
  (h.map _).sum_eq

lemma pathCount_perm (g : Graph) {n₁ n₂ : List Nat} (h : n₁.Perm n₂) :
    pathCount g n₁ = pathCount g n₂ :=
  (h.map _).sum_eq

/-- C4: `average_path_length` is a pure function of the graph — iterating
the adjacency-map keys in any order (any permutation of the key list)
yields the identical result, so repeated invocations agree. -/
theorem average_path_length_deterministic (g : Graph) (order : List Nat)
    (h : order.Perm (keysOf g)) :
    average_path_length_order g order = average_path_length g := by
  rw [average_path_length, average_order_eq, average_order_eq,
    totalDist_perm g h, pathCount_perm g h]

/-- The two-edge path graph `0→1, 1→2` of the spec scenario. -/
def pathG : Graph := (Graph.new.add_edge 0 1).add_edge 1 2

/-- Witness for C4: iterating the keys of the path graph in reversed
order gives the same average. -/
theorem average_path_length_deterministic_witness :
    ([1, 0] : List Nat).Perm (keysOf pathG) ∧
    average_path_length_order pathG [1, 0] = average_path_length pathG :=
  ⟨by decide, average_path_length_deterministic pathG [1, 0] (by decide)⟩

/-- C7: on the two-edge path graph the BFS sources are exactly the keys
`0` and `1` (node `2` has no outgoing edges and is not a key), and the
average path length is exactly `(1 + 2 + 1) / 3`. -/
theorem path_graph_average :
    keysOf pathG = [0, 1] ∧ average_path_length pathG = (1 + 2 + 1 : ℚ) / 3 := by
  constructor
  · decide
  · have h : (keysOf pathG).foldl
        (fun acc node => ((pathG.bfs node).map Prod.snd).foldl distStep acc) (0, 0) = (4, 3) := by
      decide
    unfold average_path_length average_path_length_order
    rw [h]
    norm_num

/-! ### BFS from a node with no outgoing edges -/

lemma bfsLoop_start_step (g : Graph) (fuel s : Nat) :
    bfsLoop g (fuel + 1) [(s, 0)] [s] =
      bfsLoop g fuel (visitNeighbors 0 (g.neighbors s) [(s, 0)] []).1
        ([] ++ (visitNeighbors 0 (g.neighbors s) [(s, 0)] []).2) := by
  simp [bfsLoop, findVal]

/-- C10: from a start node with no recorded outgoing edges (a key with an
empty list or an identifier absent from the map altogether), `bfs`
returns exactly the singleton map `{start: 0}`. -/
theorem bfs_no_outgoing_singleton (g : Graph) (s : Nat) (h : g.neighbors s = []) :
    g.bfs s = [(s, 0)] := by
  have hs : s ∈ (s :: targetsOf g).dedup := List.mem_dedup.mpr (List.mem_cons_self ..)
  have hlen : 1 ≤ (s :: targetsOf g).dedup.length :=
    List.length_pos.mpr (List.ne_nil_of_mem hs)
  obtain ⟨m, hm⟩ : ∃ m, bfsFuel g s = m + 1 + 1 :=
    ⟨2 * (s :: targetsOf g).dedup.length - 1, by unfold bfsFuel; omega⟩
  unfold Graph.bfs
  rw [hm, bfsLoop_start_step, h]
  simp [visitNeighbors, bfsLoop]

/-- Witness for C10: on the empty graph, `bfs(0)` is `{0: 0}`. -/
theorem bfs_no_outgoing_singleton_witness :
    Graph.new.neighbors 0 = [] ∧ Graph.new.bfs 0 = [(0, 0)] :=
  ⟨by decide, bfs_no_outgoing_singleton Graph.new 0 (by decide)⟩

/-! ### BFS correctness: the queue loop -/

lemma findVal_append_left {k : Nat} {l₁ : List (Nat × α)} (l₂ : List (Nat × α)) {v : α}
    (h : findVal k l₁ = some v) : findVal k (l₁ ++ l₂) = some v := by
  rw [findVal_append, h]

lemma findVal_append_none {k : Nat} {l₁ : List (Nat × α)} (l₂ : List (Nat × α))
    (h : findVal k l₁ = none) : findVal k (l₁ ++ l₂) = findVal k l₂ := by
  rw [findVal_append, h]

lemma findVal_append_eq_none_iff {k : Nat} {l₁ l₂ : List (Nat × α)} :
    findVal k (l₁ ++ l₂) = none ↔ findVal k l₁ = none ∧ findVal k l₂ = none := by
  rw [findVal_append]
  cases h : findVal k l₁ <;> simp

lemma mem_val_unique {dist : List (Nat × Nat)} (h : (keysOf dist).Nodup)
    {k v w : Nat} (h₁ : (k, v) ∈ dist) (h₂ : (k, w) ∈ dist) : v = w := by
  have e₁ := mem_findVal h h₁
  have e₂ := mem_findVal h h₂
  rw [e₁] at e₂
  exact Option.some.inj e₂

lemma mem_keysOf_iff_findVal {k : Nat} {l : List (Nat × α)} :
    k ∈ keysOf l ↔ ∃ v, findVal k l = some v := by
  rw [← findVal_isSome_iff, Option.isSome_iff_exists]

lemma mem_neighbors_mem_targets {g : Graph} {u x : Nat}
    (h : x ∈ g.neighbors u) : x ∈ targetsOf g := by
  induction g with
  | nil => simp [Graph.neighbors, findVal] at h
  | cons p rest ih =>
    obtain ⟨a, ns⟩ := p
    rw [targetsOf]
    by_cases ha : a = u
    · subst ha
      simp [Graph.neighbors, findVal] at h
      exact List.mem_append_left _ h
    · simp [Graph.neighbors, findVal, ha] at h
      exact List.mem_append_right _ (ih h)

/-- Full characterisation of one pass of the inner neighbor loop: it
appends the fresh neighbors (first occurrences not yet in the map) with
distance `dn + 1` to the map and pushes exactly them, in order. -/
lemma visitNeighbors_spec (dn : Nat) (ns : List Nat) :
    ∀ (dist : List (Nat × Nat)) (pushed : List Nat), ∃ fresh : List Nat,
      visitNeighbors dn ns dist pushed =
        (dist ++ fresh.map (fun n => (n, dn + 1)), pushed ++ fresh) ∧
      fresh.Nodup ∧
      (∀ x ∈ fresh, x ∈ ns ∧ findVal x dist = none) ∧
      (∀ x ∈ ns, findVal x dist ≠ none ∨ x ∈ fresh) := by
  induction ns with
  | nil =>
    intro dist pushed
    exact ⟨[], by simp [visitNeighbors], by simp, by simp, by simp⟩
  | cons n ns ih =>
    intro dist pushed
    have hunf : visitNeighbors dn (n :: ns) dist pushed =
        if (findVal n dist).isSome then visitNeighbors dn ns dist pushed
        else visitNeighbors dn ns (dist ++ [(n, dn + 1)]) (pushed ++ [n]) := rfl
    by_cases hn : (findVal n dist).isSome
    · obtain ⟨fresh, heq, hnd, hmem, hcov⟩ := ih dist pushed
      refine ⟨fresh, ?_, hnd, ?_, ?_⟩
      · rw [hunf, if_pos hn]
        exact heq
      · exact fun x hx => ⟨List.mem_cons_of_mem _ (hmem x hx).1, (hmem x hx).2⟩
      · intro x hx
        rcases List.mem_cons.mp hx with rfl | hx'
        · exact Or.inl (Option.isSome_iff_ne_none.mp hn)
        · exact hcov x hx'
    · have hn' : findVal n dist = none := Option.not_isSome_iff_eq_none.mp hn
      obtain ⟨fresh, heq, hnd, hmem, hcov⟩ := ih (dist ++ [(n, dn + 1)]) (pushed ++ [n])
      refine ⟨n :: fresh, ?_, ?_, ?_, ?_⟩
      · rw [hunf, if_neg hn, heq]
        simp
      · refine List.nodup_cons.mpr ⟨fun hmem' => ?_, hnd⟩
        have := (hmem n hmem').2
        rw [findVal_append_eq_none_iff] at this
        simp [findVal] at this
      · intro x hx
        rcases List.mem_cons.mp hx with rfl | hx'
        · exact ⟨List.mem_cons_self .., hn'⟩
        · have h2 := (hmem x hx').2
          rw [findVal_append_eq_none_iff] at h2
          exact ⟨List.mem_cons_of_mem _ (hmem x hx').1, h2.1⟩
      · intro x hx
        rcases List.mem_cons.mp hx with rfl | hx'
        · exact Or.inr (List.mem_cons_self ..)
        · rcases hcov x hx' with h | h
          · cases hfd : findVal x dist with
            | some v => exact Or.inl (by simp [hfd])
            | none =>
              rw [findVal_append_none _ hfd] at h
              have : n = x := by
                by_contra hne
                exact h (by simp [findVal, hne])
              exact Or.inr (this ▸ List.mem_cons_self ..)
          · exact Or.inr (List.mem_cons_of_mem _ h)

/-- All node identifiers BFS from `s` can ever enqueue: the start node
and every edge target, deduplicated. -/
def bfsUniverse (g : Graph) (s : Nat) : List Nat := (s :: targetsOf g).dedup

lemma bfsFuel_eq (g : Graph) (s : Nat) :
    bfsFuel g s = 2 * (bfsUniverse g s).length + 1 := rfl

/-- Invariant of the BFS queue loop, tying the partial distance map
`dist` and the pending queue together.  `blocks` is the FIFO frontier
structure: the queue is a block of nodes at some distance `dh` followed
by a block at `dh + 1`, and no recorded distance exceeds `dh + 1`. -/
structure BfsInv (g : Graph) (s : Nat) (dist : List (Nat × Nat)) (queue : List Nat) : Prop where
  keys_nodup : (keysOf dist).Nodup
  keys_universe : ∀ k ∈ keysOf dist, k ∈ bfsUniverse g s
  queue_sub : ∀ n ∈ queue, n ∈ keysOf dist
  queue_nodup : queue.Nodup
  start_mem : (s, 0) ∈ dist
  zero_start : ∀ t, (t, 0) ∈ dist → t = s
  sound : ∀ t d, (t, d) ∈ dist → 0 < d → ∃ u, (u, d - 1) ∈ dist ∧ t ∈ g.neighbors u
  closed : ∀ u du, (u, du) ∈ dist → u ∉ queue →
    ∀ t ∈ g.neighbors u, ∃ dt, (t, dt) ∈ dist ∧ dt ≤ du + 1
  blocks : ∃ q₁ q₂ dh, queue = q₁ ++ q₂ ∧ (∀ n ∈ q₁, (n, dh) ∈ dist) ∧
    (∀ n ∈ q₂, (n, dh + 1) ∈ dist) ∧ ∀ p ∈ dist, p.2 ≤ dh + 1

/-- Popping the queue head: the remaining queue still has the two-block
structure, with the head's distance `dh` in front. -/
lemma blocks_pop {g : Graph} {s : Nat} {dist : List (Nat × Nat)} {node : Nat}
    {rest : List Nat} (inv : BfsInv g s dist (node :: rest)) :
    ∃ q₁ q₂ dh, rest = q₁ ++ q₂ ∧ (node, dh) ∈ dist ∧ (∀ n ∈ q₁, (n, dh) ∈ dist) ∧
      (∀ n ∈ q₂, (n, dh + 1) ∈ dist) ∧ ∀ p ∈ dist, p.2 ≤ dh + 1 := by
  obtain ⟨q₁, q₂, dh, hq, hq₁, hq₂, hbound⟩ := inv.blocks
  cases q₁ with
  | nil =>
    simp at hq
    subst hq
    refine ⟨rest, [], dh + 1, by simp, ?_, ?_, by simp, fun p hp => ?_⟩
    · exact hq₂ node (List.mem_cons_self ..)
    · intro n hn
      exact hq₂ n (List.mem_cons_of_mem _ hn)
    · exact le_trans (hbound p hp) (by omega)
  | cons n₀ q₁' =>
    rw [List.cons_append] at hq
    obtain ⟨rfl, rfl⟩ : node = n₀ ∧ rest = q₁' ++ q₂ := by
      have h1 := List.head_eq_of_cons_eq hq
      have h2 := List.tail_eq_of_cons_eq hq
      exact ⟨h1, h2⟩
    exact ⟨q₁', q₂, dh, rfl, hq₁ _ (List.mem_cons_self ..), fun n hn => hq₁ _ (List.mem_cons_of_mem _ hn), hq₂, hbound⟩

lemma keysOf_append (l₁ l₂ : List (Nat × α)) :
    keysOf (l₁ ++ l₂) = keysOf l₁ ++ keysOf l₂ := by
  simp [keysOf]

lemma keysOf_map_pair (fresh : List Nat) (d : Nat) :
    keysOf (fresh.map (fun n => (n, d))) = fresh := by
  simp [keysOf, List.map_map]
  exact List.map_id fresh

/-- One iteration of the queue loop preserves the invariant: popping
`node`, visiting its neighbors and pushing the fresh ones. -/
lemma bfsInv_step (g : Graph) (s : Nat) (dist : List (Nat × Nat)) (node : Nat)
    (rest : List Nat) (inv : BfsInv g s dist (node :: rest)) :
    ∃ dn fresh, findVal node dist = some dn ∧
      visitNeighbors dn (g.neighbors node) dist [] =
        (dist ++ fresh.map (fun n => (n, dn + 1)), fresh) ∧
      BfsInv g s (dist ++ fresh.map (fun n => (n, dn + 1))) (rest ++ fresh) := by
  obtain ⟨q₁, q₂, dh, hrest, hnode, hq₁, hq₂, hbound⟩ := blocks_pop inv
  have hdn : findVal node dist = some dh := mem_findVal inv.keys_nodup hnode
  obtain ⟨fresh, heq, hfr_nodup, hfr_mem, hfr_cov⟩ :=
    visitNeighbors_spec dh (g.neighbors node) dist []
  simp only [List.nil_append] at heq
  have hfresh_not_key : ∀ x ∈ fresh, x ∉ keysOf dist :=
    fun x hx => findVal_eq_none_iff.mp (hfr_mem x hx).2
  have hkeys' : keysOf (dist ++ fresh.map (fun n => (n, dh + 1))) = keysOf dist ++ fresh := by
    rw [keysOf_append, keysOf_map_pair]
  have hmem_map : ∀ t d, (t, d) ∈ fresh.map (fun n => (n, dh + 1)) ↔ t ∈ fresh ∧ d = dh + 1 := by
    intro t d
    rw [List.mem_map]
    constructor
    · rintro ⟨x, hx, hxe⟩
      rw [Prod.mk.injEq] at hxe
      exact ⟨hxe.1 ▸ hx, hxe.2.symm⟩
    · rintro ⟨hx, rfl⟩
      exact ⟨t, hx, rfl⟩
  refine ⟨dh, fresh, hdn, heq, ?_⟩
  refine ⟨?_, ?_, ?_, ?_, ?_, ?_, ?_, ?_, ?_⟩
  · rw [hkeys', List.nodup_append]
    exact ⟨inv.keys_nodup, hfr_nodup, fun x hx hx' => hfresh_not_key x hx' hx⟩
  · intro k hk
    rcases List.mem_append.mp (hkeys' ▸ hk) with h | h
    · exact inv.keys_universe k h
    · exact List.mem_dedup.mpr
        (List.mem_cons_of_mem _ (mem_neighbors_mem_targets (hfr_mem k h).1))
  · intro n hn
    rw [hkeys']
    rcases List.mem_append.mp hn with h | h
    · exact List.mem_append_left _ (inv.queue_sub n (List.mem_cons_of_mem _ h))
    · exact List.mem_append_right _ h
  · rw [List.nodup_append]
    refine ⟨(List.nodup_cons.mp inv.queue_nodup).2, hfr_nodup, fun x hx hx' => ?_⟩
    exact hfresh_not_key x hx' (inv.queue_sub x (List.mem_cons_of_mem _ hx))
  · exact List.mem_append_left _ inv.start_mem
  · intro t ht
    rcases List.mem_append.mp ht with h | h
    · exact inv.zero_start t h
    · exact absurd ((hmem_map t 0).mp h).2 (by omega)
  · intro t d ht hd
    rcases List.mem_append.mp ht with h | h
    · obtain ⟨u, hu, hnb⟩ := inv.sound t d h hd
      exact ⟨u, List.mem_append_left _ hu, hnb⟩
    · obtain ⟨htf, rfl⟩ := (hmem_map t d).mp h
      refine ⟨node, ?_, (hfr_mem t htf).1⟩
      simpa using List.mem_append_left (fresh.map (fun n => (n, dh + 1))) hnode
  · intro u du hu hnq t htn
    have hur : u ∉ rest := fun h => hnq (List.mem_append_left _ h)
    have huf : u ∉ fresh := fun h => hnq (List.mem_append_right _ h)
    have hud : (u, du) ∈ dist := by
      rcases List.mem_append.mp hu with h | h
      · exact h
      · exact absurd ((hmem_map u du).mp h).1 huf
    by_cases hune : u = node
    · subst hune
      have hdu : du = dh := mem_val_unique inv.keys_nodup hud hnode
      subst hdu
      rcases hfr_cov t htn with h | h
      · cases hfd : findVal t dist with
        | none => exact absurd hfd h
        | some dt =>
          have htd : (t, dt) ∈ dist := findVal_mem hfd
          exact ⟨dt, List.mem_append_left _ htd, by simpa using hbound (t, dt) htd⟩
      · exact ⟨du + 1, List.mem_append_right _ ((hmem_map t (du + 1)).mpr ⟨h, rfl⟩),
          Nat.le_refl _⟩
    · have hnq_old : u ∉ node :: rest := by
        intro hmem'
        rcases List.mem_cons.mp hmem' with rfl | h
        · exact hune rfl
        · exact hur h
      obtain ⟨dt, htd, hle⟩ := inv.closed u du hud hnq_old t htn
      exact ⟨dt, List.mem_append_left _ htd, hle⟩
  · refine ⟨q₁, q₂ ++ fresh, dh, ?_, ?_, ?_, ?_⟩
    · rw [hrest, List.append_assoc]
    · exact fun n hn => List.mem_append_left _ (hq₁ n hn)
    · intro n hn
      rcases List.mem_append.mp hn with h | h
      · exact List.mem_append_left _ (hq₂ n h)
      · exact List.mem_append_right _ ((hmem_map n (dh + 1)).mpr ⟨h, rfl⟩)
    · intro p hp
      rcases List.mem_append.mp hp with h | h
      · exact hbound p h
      · obtain ⟨x, hx, rfl⟩ := List.mem_map.mp h
        simp

/-- With enough fuel (relative to how many universe nodes are still
unvisited) the queue loop drains its queue and never returns `none`. -/
lemma bfsLoop_total (g : Graph) (s : Nat) : ∀ (fuel : Nat) (dist : List (Nat × Nat))
    (queue : List Nat), BfsInv g s dist queue →
    2 * ((bfsUniverse g s).length - (keysOf dist).length) + queue.length < fuel →
    ∃ final, bfsLoop g fuel dist queue = some final ∧ BfsInv g s final [] := by
  intro fuel
  induction fuel with
  | zero => intro dist queue _ hm; omega
  | succ fuel ih =>
    intro dist queue inv hm
    cases queue with
    | nil => exact ⟨dist, rfl, inv⟩
    | cons node rest =>
      obtain ⟨dn, fresh, hdn, hvn, inv'⟩ := bfsInv_step g s dist node rest inv
      have hunf : bfsLoop g (fuel + 1) dist (node :: rest) =
          bfsLoop g fuel (dist ++ fresh.map (fun n => (n, dn + 1))) (rest ++ fresh) := by
        have h0 : bfsLoop g (fuel + 1) dist (node :: rest) =
            match findVal node dist with
            | none => none
            | some d =>
              let st := visitNeighbors d (g.neighbors node) dist []
              bfsLoop g fuel st.1 (rest ++ st.2) := rfl
        rw [h0, hdn]
        show bfsLoop g fuel (visitNeighbors dn (g.neighbors node) dist []).1
          (rest ++ (visitNeighbors dn (g.neighbors node) dist []).2) = _
        rw [hvn]
      rw [hunf]
      refine ih _ _ inv' ?_
      have hkeys' : keysOf (dist ++ fresh.map (fun n => (n, dn + 1))) =
          keysOf dist ++ fresh := by
        rw [keysOf_append, keysOf_map_pair]
      have hsub : (keysOf dist ++ fresh).length ≤ (bfsUniverse g s).length := by
        have hnd : (keysOf dist ++ fresh).Nodup := hkeys' ▸ inv'.keys_nodup
        have hss : (keysOf dist ++ fresh) ⊆ bfsUniverse g s := by
          intro x hx
          exact inv'.keys_universe x (hkeys' ▸ hx)
        exact (hnd.subperm hss).length_le
      rw [hkeys']
      simp only [List.length_append, List.length_cons] at hm hsub ⊢
      omega

/-- The initial BFS state `{start: 0}` with queue `[start]` satisfies the
loop invariant. -/
lemma bfs_initial_inv (g : Graph) (s : Nat) : BfsInv g s [(s, 0)] [s] := by
  refine ⟨?_, ?_, ?_, ?_, ?_, ?_, ?_, ?_, ?_⟩
  · simp [keysOf]
  · intro k hk
    simp [keysOf] at hk
    subst hk
    exact List.mem_dedup.mpr (List.mem_cons_self ..)
  · intro n hn
    simp at hn
    simp [keysOf, hn]
  · simp
  · simp
  · intro t ht
    simp at ht
    exact ht
  · intro t d ht hd
    simp at ht
    omega
  · intro u du hu hq t htn
    simp at hu
    exact absurd (by simp [hu.1]) hq
  · refine ⟨[s], [], 0, by simp, ?_, by simp, ?_⟩
    · intro n hn
      simp at hn
      simp [hn]
    · intro p hp
      simp at hp
      subst hp
      simp

/-- Running `Graph::bfs` from any start node: the loop terminates within
`bfsFuel` steps and its final state satisfies the invariant with an empty
queue. -/
lemma bfs_run (g : Graph) (s : Nat) :
    ∃ final, bfsLoop g (bfsFuel g s) [(s, 0)] [s] = some final ∧
      g.bfs s = final ∧ BfsInv g s final [] := by
  have hs : s ∈ bfsUniverse g s := List.mem_dedup.mpr (List.mem_cons_self ..)
  have hlen : 1 ≤ (bfsUniverse g s).length := List.length_pos.mpr (List.ne_nil_of_mem hs)
  obtain ⟨final, hrun, hinv⟩ := bfsLoop_total g s (bfsFuel g s) [(s, 0)] [s]
    (bfs_initial_inv g s)
    (by rw [bfsFuel_eq]; simp [keysOf]; omega)
  exact ⟨final, hrun, by rw [Graph.bfs, hrun]; rfl, hinv⟩

/-- In the final state every walk of length `n` to `t` puts `t` in the
map with a recorded distance at most `n`. -/
lemma inv_complete {g : Graph} {s : Nat} {dist : List (Nat × Nat)}
    (inv : BfsInv g s dist []) :
    ∀ {t n}, PathTo g s t n → ∃ d, (t, d) ∈ dist ∧ d ≤ n := by
  intro t n hp
  induction hp with
  | refl => exact ⟨0, inv.start_mem, Nat.le_refl 0⟩
  | step hp' hmem ih =>
    obtain ⟨du, hu, hle⟩ := ih
    obtain ⟨dt, ht, hle'⟩ := inv.closed _ du hu (by simp) _ hmem
    exact ⟨dt, ht, by omega⟩

/-- In any invariant state every recorded distance is realized by an
actual walk of exactly that length. -/
lemma inv_sound {g : Graph} {s : Nat} {dist : List (Nat × Nat)} {queue : List Nat}
    (inv : BfsInv g s dist queue) :
    ∀ d t, (t, d) ∈ dist → PathTo g s t d := by
  intro d
  induction d using Nat.strong_induction_on with
  | _ d ih =>
    intro t ht
    rcases Nat.eq_zero_or_pos d with rfl | hd
    · have := inv.zero_start t ht
      subst this
      exact PathTo.refl
    · obtain ⟨u, hu, hnbr⟩ := inv.sound t d ht hd
      have hp := ih (d - 1) (by omega) u hu
      have hstep := PathTo.step hp hnbr
      rwa [show d - 1 + 1 = d from by omega] at hstep

lemma inv_findVal_min {g : Graph} {s : Nat} {dist : List (Nat × Nat)}
    (inv : BfsInv g s dist []) {t d : Nat} (h : findVal t dist = some d) :
    PathTo g s t d ∧ ∀ n, PathTo g s t n → d ≤ n := by
  have ht := findVal_mem h
  refine ⟨inv_sound inv d t ht, fun n hp => ?_⟩
  obtain ⟨d', hd', hle⟩ := inv_complete inv hp
  have he : findVal t dist = some d' := mem_findVal inv.keys_nodup hd'
  rw [h] at he
  have : d = d' := Option.some.inj he
  omega

lemma inv_keys_reachable {g : Graph} {s : Nat} {dist : List (Nat × Nat)}
    (inv : BfsInv g s dist []) (t : Nat) :
    (∃ d, findVal t dist = some d) ↔ Reachable g s t := by
  constructor
  · rintro ⟨d, hd⟩
    exact ⟨d, inv_sound inv d t (findVal_mem hd)⟩
  · rintro ⟨n, hp⟩
    obtain ⟨d, hd, _⟩ := inv_complete inv hp
    exact ⟨d, mem_findVal inv.keys_nodup hd⟩

/-- C1: the keys of `bfs(s)` are exactly the nodes reachable from `s` by
directed hops, each key's recorded value is the minimum hop count of a
walk from `s` to it (so unreachable nodes have no entry), and
`bfs(s)[s] = 0`. -/
theorem bfs_distances_correct (g : Graph) (s : Nat) :
    findVal s (g.bfs s) = some 0 ∧
    (∀ t, (∃ d, findVal t (g.bfs s) = some d) ↔ Reachable g s t) ∧
    ∀ t d, findVal t (g.bfs s) = some d →
      PathTo g s t d ∧ ∀ n, PathTo g s t n → d ≤ n := by
  obtain ⟨final, _, hbfs, hinv⟩ := bfs_run g s
  rw [hbfs]
  exact ⟨mem_findVal hinv.keys_nodup hinv.start_mem,
    fun t => inv_keys_reachable hinv t,
    fun t d hd => inv_findVal_min hinv hd⟩

/-- Witness for C1 on the path graph `0→1, 1→2`: node `2` is recorded at
distance `2`, realized by an actual two-hop walk. -/
theorem bfs_distances_correct_witness :
    findVal 2 (pathG.bfs 0) = some 2 ∧ PathTo pathG 0 2 2 :=
  ⟨by decide, ((bfs_distances_correct pathG 0).2.2 2 2 (by decide)).1⟩

/-- C3: `bfs` terminates on every graph (cycles included): the queue loop
drains within `bfsFuel` iterations — each node enters the distance map at
most once (its keys are distinct) — and it stops exactly when every node
reachable from the start has been visited. -/
theorem bfs_terminates (g : Graph) (s : Nat) :
    ∃ final, bfsLoop g (bfsFuel g s) [(s, 0)] [s] = some final ∧
      g.bfs s = final ∧ (keysOf final).Nodup ∧
      ∀ t, t ∈ keysOf final ↔ Reachable g s t := by
  obtain ⟨final, hrun, hbfs, hinv⟩ := bfs_run g s
  refine ⟨final, hrun, hbfs, hinv.keys_nodup, fun t => ?_⟩
  rw [mem_keysOf_iff_findVal]
  exact inv_keys_reachable hinv t
